import Mathlib

/-!
Verification of the embedded-text layout pipeline.

The development shallowly embeds the tokenizing parser (src/parser.rs), the
per-line element parser (src/rendering/line_iter.rs), the justified space
configuration (src/alignment/justified.rs) and the text-box driver loop
(src/rendering/mod.rs) over lists of characters, and proves the spec claims
about them.  Strings are modelled as `List Char`; pixel widths as `Nat`.
-/

namespace EmbeddedText

/-- Unicode code points with the White_Space property, mirroring Rust's
`char::is_whitespace`. -/
def rust_whitespace (c : Char) : Bool :=
  [Char.ofNat 0x09, Char.ofNat 0x0A, Char.ofNat 0x0B, Char.ofNat 0x0C,
   Char.ofNat 0x0D, Char.ofNat 0x20, Char.ofNat 0x85, Char.ofNat 0xA0,
   Char.ofNat 0x1680, Char.ofNat 0x2000, Char.ofNat 0x2001, Char.ofNat 0x2002,
   Char.ofNat 0x2003, Char.ofNat 0x2004, Char.ofNat 0x2005, Char.ofNat 0x2006,
   Char.ofNat 0x2007, Char.ofNat 0x2008, Char.ofNat 0x2009, Char.ofNat 0x200A,
   Char.ofNat 0x2028, Char.ofNat 0x2029, Char.ofNat 0x202F, Char.ofNat 0x205F,
   Char.ofNat 0x3000].contains c

/-- The zero-width space U+200B. -/
def zwsp : Char := Char.ofNat 0x200B

/-- The no-break space U+00A0. -/
def nbsp : Char := Char.ofNat 0xA0

/-- Word characters; from `Parser::is_word_char` (src/parser.rs:72-74). -/
def is_word_char (c : Char) : Bool :=
  (!rust_whitespace c || c == nbsp) && c != zwsp

/-- Breaking space characters; from `Parser::is_space_char`
(src/parser.rs:76-80).  The Rust `&&` binds tighter than `||`; the list
membership test is expanded into explicit comparisons. -/
def is_space_char (c : Char) : Bool :=
  (rust_whitespace c
      && !(c == Char.ofNat 0x0A || c == Char.ofNat 0x0D || c == nbsp || c == zwsp))
    || c == zwsp

/-- Tokens of the tokenizing parser (src/parser.rs). -/
inductive PToken where
  | newLine : PToken
  | carriageReturn : PToken
  | whitespace : Nat → PToken
  | word : List Char → PToken
  | brk : PToken
deriving DecidableEq

/-- One step of `impl Iterator for Parser` (src/parser.rs:83-141): the next
token, the characters it consumed, and the remaining input. -/
def parse_next : List Char → Option (PToken × List Char × List Char)
  | [] => none
  | c :: cs =>
    if is_word_char c then
      some (.word (c :: cs.takeWhile is_word_char),
            c :: cs.takeWhile is_word_char,
            cs.dropWhile is_word_char)
    else if c = Char.ofNat 0x0A then some (.newLine, [c], cs)
    else if c = Char.ofNat 0x0D then some (.carriageReturn, [c], cs)
    else if c = zwsp then some (.brk, [c], cs)
    else
      -- whitespace run: U+200B inside the run is consumed without being counted
      some (.whitespace (1 + ((cs.takeWhile is_space_char).filter (fun x => x != zwsp)).length),
            c :: cs.takeWhile is_space_char,
            cs.dropWhile is_space_char)

/-- Iterate `parse_next`, keeping each token with its consumed characters.
The fuel is the input length; each step consumes at least one character. -/
def parse_segments_go : Nat → List Char → List (PToken × List Char)
  | 0, _ => []
  | fuel + 1, s =>
    match parse_next s with
    | none => []
    | some (t, seg, rest) => (t, seg) :: parse_segments_go fuel rest

/-- The token stream of an input together with the consumed characters. -/
def parse_segments (s : List Char) : List (PToken × List Char) :=
  parse_segments_go s.length s

/-- The bare token stream, `Parser::parse(s).collect()`. -/
def parse_tokens (s : List Char) : List PToken :=
  (parse_segments s).map Prod.fst

/-- Well-formedness of one token against the characters it consumed: a word
token carries exactly its word characters; a whitespace token counts exactly
its non-U+200B breaking spaces; the structural tokens consume their single
code point. -/
def seg_ok : PToken × List Char → Bool
  | (.word w, seg) => seg == w && !w.isEmpty && w.all is_word_char
  | (.whitespace n, seg) =>
      ((seg.filter (fun c => c != zwsp)).length == n) && n != 0
        && seg.all is_space_char
  | (.newLine, seg) => seg == [Char.ofNat 0x0A]
  | (.carriageReturn, seg) => seg == [Char.ofNat 0x0D]
  | (.brk, seg) => seg == [zwsp]

theorem parse_next_none {s : List Char} : parse_next s = none ↔ s = [] := by
  cases s with
  | nil => simp [parse_next]
  | cons c cs =>
    simp only [parse_next]
    constructor
    · intro h
      split_ifs at h
    · intro h
      exact absurd h (by simp)

theorem length_dropWhile_le (p : Char → Bool) (l : List Char) :
    (l.dropWhile p).length ≤ l.length := by
  induction l with
  | nil => simp [List.dropWhile]
  | cons x xs ih =>
    simp only [List.dropWhile]
    by_cases hp : p x
    · rw [hp]
      simp
      omega
    · simp [hp]

theorem not_word_char_space {c : Char} (hw : ¬ is_word_char c = true)
    (hn : ¬ c = Char.ofNat 0x0A) (hr : ¬ c = Char.ofNat 0x0D)
    (hz : ¬ c = zwsp) : is_space_char c = true := by
  cases hws : rust_whitespace c with
  | false =>
    exfalso
    exact hw (by simp [is_word_char, hws, hz])
  | true =>
    have hna : ¬ c = nbsp := by
      intro hc
      refine hw ?_
      simp only [is_word_char, hc]
      decide
    simp [is_space_char, hws, hn, hr, hna, hz]

theorem parse_next_spec {s : List Char} {t : PToken} {seg rest : List Char}
    (h : parse_next s = some (t, seg, rest)) :
    seg ++ rest = s ∧ rest.length < s.length ∧ seg_ok (t, seg) = true := by
  cases s with
  | nil => simp [parse_next] at h
  | cons c cs =>
    simp only [parse_next] at h
    by_cases hw : is_word_char c = true
    · rw [if_pos hw] at h
      simp only [Option.some.injEq, Prod.mk.injEq] at h
      obtain ⟨ht, hseg, hrest⟩ := h
      subst ht hseg hrest
      refine ⟨by simp [List.takeWhile_append_dropWhile], ?_, ?_⟩
      · have := length_dropWhile_le is_word_char cs
        simp only [List.length_cons]
        omega
      · have hall : ∀ a ∈ c :: cs.takeWhile is_word_char, is_word_char a = true := by
          intro a ha
          rcases List.mem_cons.mp ha with h1 | h1
          · rw [h1]; exact hw
          · exact List.mem_takeWhile_imp h1
        simp [seg_ok, List.all_eq_true, hall]
    · rw [if_neg hw] at h
      by_cases hn : c = Char.ofNat 0x0A
      · rw [if_pos hn] at h
        simp only [Option.some.injEq, Prod.mk.injEq] at h
        obtain ⟨ht, hseg, hrest⟩ := h
        subst ht hseg hrest
        exact ⟨by simp, by simp, by simp [seg_ok, hn]⟩
      · rw [if_neg hn] at h
        by_cases hr : c = Char.ofNat 0x0D
        · rw [if_pos hr] at h
          simp only [Option.some.injEq, Prod.mk.injEq] at h
          obtain ⟨ht, hseg, hrest⟩ := h
          subst ht hseg hrest
          exact ⟨by simp, by simp, by simp [seg_ok, hr]⟩
        · rw [if_neg hr] at h
          by_cases hz : c = zwsp
          · rw [if_pos hz] at h
            simp only [Option.some.injEq, Prod.mk.injEq] at h
            obtain ⟨ht, hseg, hrest⟩ := h
            subst ht hseg hrest
            exact ⟨by simp, by simp, by simp [seg_ok, hz]⟩
          · rw [if_neg hz] at h
            simp only [Option.some.injEq, Prod.mk.injEq] at h
            obtain ⟨ht, hseg, hrest⟩ := h
            subst ht hseg hrest
            refine ⟨by simp [List.takeWhile_append_dropWhile], ?_, ?_⟩
            · have := length_dropWhile_le is_space_char cs
              simp only [List.length_cons]
              omega
            · have hc : is_space_char c = true := not_word_char_space hw hn hr hz
              have hcz : (c != zwsp) = true := by simp [hz]
              have hall : ∀ a ∈ c :: cs.takeWhile is_space_char, is_space_char a = true := by
                intro a ha
                rcases List.mem_cons.mp ha with h1 | h1
                · rw [h1]; exact hc
                · exact List.mem_takeWhile_imp h1
              simp [seg_ok, List.filter_cons, hcz, List.all_eq_true, hall, Nat.add_comm]

theorem parse_segments_go_spec :
    ∀ (fuel : Nat) (s : List Char), s.length ≤ fuel →
      ((parse_segments_go fuel s).map Prod.snd).flatten = s
        ∧ (parse_segments_go fuel s).all seg_ok = true := by
  intro fuel
  induction fuel with
  | zero =>
    intro s hs
    have : s = [] := by
      cases s with
      | nil => rfl
      | cons c cs => simp at hs
    subst this
    simp [parse_segments_go]
  | succ n ih =>
    intro s hs
    match hp : parse_next s with
    | none =>
      have : s = [] := parse_next_none.mp hp
      subst this
      simp [parse_segments_go, hp]
    | some (t, seg, rest) =>
      obtain ⟨hcat, hlt, hok⟩ := parse_next_spec hp
      have hrest : rest.length ≤ n := by omega
      obtain ⟨ih1, ih2⟩ := ih rest hrest
      simp only [parse_segments_go, hp, List.map_cons, List.flatten_cons, List.all_cons]
      exact ⟨by rw [ih1, hcat], by simp [hok, ih2]⟩

/-- C2: the token stream accounts for every code point exactly once.
Concatenating the consumed segments of all tokens reproduces the input, and
each segment matches its token: a `Word` consumes exactly its (nonempty,
all-word-character) slice, a `Whitespace n` consumes a run of breaking space
characters exactly `n` of which are not U+200B (the U+200B are absorbed),
and `NewLine`, `CarriageReturn`, `Break` consume their single code point
(`Break` is the consumed U+200B). -/
theorem parser_token_coverage (s : List Char) :
    ((parse_segments s).map Prod.snd).flatten = s
      ∧ (parse_segments s).all seg_ok = true :=
  parse_segments_go_spec s.length s le_rfl


/-! The per-line element parser (src/rendering/line_iter.rs).

The line element parser consumes tokens of the richer token type used by
`line_iter.rs` (soft-hyphen data on `Break`, `Tab`).  The parser it reads
from is modelled as the list of its remaining tokens; the string-width
closure `M` passed to `LineElementParser::new` is an arbitrary function
`List Char -> Nat`.
-/

/-- Tokens consumed by the line element parser (`Token` as used by
src/rendering/line_iter.rs). -/
inductive Tok where
  | word : List Char → Tok
  | whitespace : Nat → Tok
  | brk : Option (List Char) → Tok
  | tab : Tok
  | newLine : Tok
  | carriageReturn : Tok
deriving DecidableEq

/-- Space configuration (`JustifiedSpaceConfig`, src/alignment/justified.rs:
27-52).  `space_width` pixels per space; the first `space_count` spaces get
one extra pixel.  A uniform configuration has `space_count = 0`. -/
structure SpaceConfig where
  space_width : Nat
  space_count : Nat
deriving DecidableEq

/-- One whitespace block width; from `SpaceConfig::next_space_width`
(src/alignment/justified.rs:55-63). -/
def SpaceConfig.next_space_width : SpaceConfig → Nat × SpaceConfig
  | cfg =>
    if cfg.space_count = 0 then (cfg.space_width, cfg)
    else (cfg.space_width + 1, ⟨cfg.space_width, cfg.space_count - 1⟩)

/-- Width of the next `k` spaces without consuming; from
`SpaceConfig::peek_next_width` (src/alignment/justified.rs:65-68). -/
def SpaceConfig.peek_next_width (cfg : SpaceConfig) (k : Nat) : Nat :=
  k * cfg.space_width + min cfg.space_count k

/-- Modelled from the spec: `SpaceConfig::consume(k)` of the line element
parser's space-config capability (src/rendering/space_config.rs is not under
src/).  Per section 3 of the spec it commits the width of the next `k`
spaces, distributing the extra pixels to the first spaces, i.e. it performs
`k` successive `next_space_width` draws and returns their sum. -/
def SpaceConfig.consume : SpaceConfig → Nat → Nat × SpaceConfig
  | cfg, 0 => (0, cfg)
  | cfg, k + 1 =>
    let r1 := cfg.next_space_width
    let r2 := r1.2.consume k
    (r1.1 + r2.1, r2.2)

/-- Render elements emitted for one line (`RenderElement`,
src/rendering/line_iter.rs:33-49, ANSI feature disabled). -/
inductive Elem where
  | space : Nat → Nat → Elem
  | printed : List Char → Elem
deriving DecidableEq

/-- Internal state of the line element parser (`State`,
src/rendering/line_iter.rs:20-31). -/
inductive LState where
  | processToken : Tok → LState
  | wordSt : List Char → LState
  | firstWord : List Char → LState
  | done : LState
deriving DecidableEq

/-- Full mutable state of `LineElementParser`: remaining parser tokens, the
state-machine state, the space config, the cursor x position, the
`first_word` flag and the carried-token slot. -/
structure LineState where
  tokens : List Tok
  current : LState
  config : SpaceConfig
  pos : Nat
  first_word : Bool
  carried : Option Tok
deriving DecidableEq

/-- Static per-line context: line width in pixels, tab width, the alignment
capability booleans `STARTING_SPACES` / `ENDING_SPACES`. -/
structure LineCtx where
  width : Nat
  tab_width : Nat
  starting_spaces : Bool
  ending_spaces : Bool

/-- Modelled from the spec: `Cursor::fits_in_line` (src/rendering/cursor.rs
is not under src/).  Per section 3, advancing fails when
`pos.x + k > bounds.right + 1`, so `k` fits while `pos + k <= width`. -/
def fits_in_line (ctx : LineCtx) (pos k : Nat) : Bool :=
  pos + k ≤ ctx.width

/-- Modelled from the spec: `Cursor::space()` (src/rendering/cursor.rs is
not under src/), the remaining room on the line. -/
def cursor_space (ctx : LineCtx) (pos : Nat) : Nat :=
  ctx.width - pos

/-- Modelled from the spec: `Cursor::next_tab_width()` (src/rendering/
cursor.rs is not under src/): the distance to the next tab stop, i.e. to the
next column that is a positive multiple of `tab_width` relative to the line
start.  Section 4.2 additionally clamps this value to `space()`, but section
4.3 requires the not-fitting branch of the `Tab` arm to be reachable, so the
clamp is omitted here and the distance itself is returned. -/
def next_tab_width (ctx : LineCtx) (pos : Nat) : Nat :=
  if ctx.tab_width = 0 then 0 else ctx.tab_width - pos % ctx.tab_width

/-- Lookahead accumulation of `LineElementParser::next_word_width`
(src/rendering/line_iter.rs:124-150): sums consecutive word widths, adds a
final soft-hyphen width, stops at any other token. -/
def next_word_width_go (M : List Char → Nat) : List Tok → Option Nat → Option Nat
  | [], acc => acc
  | .word w :: ts, acc => next_word_width_go M ts (some (acc.getD 0 + M w))
  | .brk (some c) :: _, acc => some (acc.getD 0 + M c)
  | _ :: _, acc => acc

/-- Width of the word following the current position, if any; from
`LineElementParser::next_word_width` (src/rendering/line_iter.rs:124-150). -/
def next_word_width (M : List Char → Nat) (ts : List Tok) : Option Nat :=
  next_word_width_go M ts none

/-- Loop of `LineElementParser::count_widest_space_seq`
(src/rendering/line_iter.rs:157-167); the fuel argument counts the remaining
iterations of `spaces_to_render < n`. -/
def count_widest_go (cfg : SpaceConfig) (avail : Nat) : Nat → Nat → Nat
  | k, 0 => k
  | k, fuel + 1 =>
    if cfg.peek_next_width (k + 1) < avail then count_widest_go cfg avail (k + 1) fuel
    else k

/-- Largest number of spaces (at most `n`) whose width is strictly below the
available room; from `LineElementParser::count_widest_space_seq`
(src/rendering/line_iter.rs:157-167). -/
def count_widest_space_seq (cfg : SpaceConfig) (avail n : Nat) : Nat :=
  count_widest_go cfg avail 0 n

/-- Effect of `LineElementParser::next_token`
(src/rendering/line_iter.rs:104-109): pop the next parser token, or finish
at end of string. -/
def next_token_state (st : LineState) : LineState :=
  match st.tokens with
  | [] => { st with current := .done }
  | t :: ts => { st with current := .processToken t, tokens := ts }

/-- Effect of `LineElementParser::finish` (src/rendering/line_iter.rs:
119-122): store the carried token and stop. -/
def finish_state (st : LineState) (t : Tok) : LineState :=
  { st with current := .done, carried := some t }

/-- Effect of `LineElementParser::finish_wrapped`
(src/rendering/line_iter.rs:115-117). -/
def finish_wrapped_state (st : LineState) : LineState :=
  finish_state st (.brk none)

/-- Outcome of the character scan of the `State::FirstWord` arm
(src/rendering/line_iter.rs:393-463): a leading or inner no-break space that
fits, an overflow at the first character or further in, or a fully fitting
word. -/
inductive FWOut where
  | nbspLead : FWOut
  | nbspMid : Nat → Nat → FWOut
  | overflowStart : FWOut
  | overflowMid : Nat → Nat → FWOut
  | allFit : Nat → FWOut
deriving DecidableEq

/-- The character loop of the `State::FirstWord` arm
(src/rendering/line_iter.rs:393-458): scan characters, accumulating the
width of those that fit; stop at a fitting no-break space or at the first
character that no longer fits. -/
def first_word_scan (ctx : LineCtx) (M : List Char → Nat) (cfg : SpaceConfig)
    (pos : Nat) : List Char → Nat → Nat → FWOut
  | [], _, width => .allFit width
  | c :: cs, i, width =>
    let cw := if c = nbsp then cfg.peek_next_width 1 else M [c]
    if fits_in_line ctx pos (width + cw) then
      if c = nbsp then (if i = 0 then .nbspLead else .nbspMid i width)
      else first_word_scan ctx M cfg pos cs (i + 1) (width + cw)
    else if i = 0 then .overflowStart
    else .overflowMid i width

/-- Result of one iteration of the `loop` in
`<LineElementParser as Iterator>::next` (src/rendering/line_iter.rs:
199-467): emit a render element, continue without emitting, or stop (the
`State::Done` arm returning `None`). -/
inductive StepRes where
  | emit : Elem → LineState → StepRes
  | cont : LineState → StepRes
  | stop : StepRes
deriving DecidableEq

/-- The whitespace-rendering half of the `Token::Whitespace` arm
(src/rendering/line_iter.rs:229-258): when wrapping, one space is eaten
first; then the widest space run is rendered and the remainder carried. -/
def whitespace_render (ctx : LineCtx) (st : LineState) (would_wrap : Bool)
    (n : Nat) : StepRes :=
  let n1 := if would_wrap then n - 1 else n
  let k := count_widest_space_seq st.config (cursor_space ctx st.pos) n1
  if 0 < k then
    let r := st.config.consume k
    let st1 := { st with config := r.2, pos := st.pos + r.1 }
    if n1 - k = 0 then .emit (.space r.1 k) (next_token_state st1)
    else .emit (.space r.1 k) (finish_state st1 (.whitespace (n1 - k)))
  else
    if 1 < n1 then .cont (finish_state st (.whitespace (n1 - 1)))
    else .cont (finish_wrapped_state st)

/-- The `Token::Whitespace` arm (src/rendering/line_iter.rs:207-265). -/
def whitespace_arm (ctx : LineCtx) (M : List Char → Nat) (st : LineState)
    (n : Nat) : StepRes :=
  if st.first_word then
    if ctx.starting_spaces then
      whitespace_render ctx { st with first_word := false } false n
    else .cont (next_token_state st)
  else
    match next_word_width M st.tokens with
    | some ww =>
      let space_width := st.config.peek_next_width n
      let fits := fits_in_line ctx st.pos (space_width + ww)
      if ctx.ending_spaces || fits then whitespace_render ctx st (!fits) n
      else .cont (finish_wrapped_state st)
    | none =>
      if ctx.ending_spaces then whitespace_render ctx st false n
      else .cont (next_token_state st)

/-- The `Token::Break` arm (src/rendering/line_iter.rs:267-291). -/
def break_arm (ctx : LineCtx) (M : List Char → Nat) (st : LineState)
    (oc : Option (List Char)) : StepRes :=
  let fits := match next_word_width M st.tokens with
    | some ww => fits_in_line ctx st.pos ww
    | none => true
  if fits then .cont (next_token_state st)
  else
    match oc with
    | some c =>
      if fits_in_line ctx st.pos (M c) then
        .emit (.printed c) (finish_wrapped_state { st with pos := st.pos + M c })
      else .cont (finish_state st (.word c))
    | none => .cont (finish_wrapped_state st)

/-- The `State::Word` arm (src/rendering/line_iter.rs:362-391): split the
word at its first no-break space, else print it whole. -/
def word_state_arm (_ctx : LineCtx) (M : List Char → Nat) (st : LineState)
    (w : List Char) : StepRes :=
  match w.findIdx? (fun c => c = nbsp) with
  | some 0 =>
    let r := st.config.consume 1
    .emit (.space r.1 1)
      { st with current := .wordSt (w.drop 1), config := r.2, pos := st.pos + r.1 }
  | some (i + 1) =>
    .emit (.printed (w.take (i + 1)))
      { st with current := .wordSt (w.drop (i + 1)), pos := st.pos + M (w.take (i + 1)) }
  | none =>
    .emit (.printed w) (next_token_state { st with pos := st.pos + M w })

/-- The `State::FirstWord` arm (src/rendering/line_iter.rs:393-463). -/
def first_word_arm (ctx : LineCtx) (M : List Char → Nat) (st : LineState)
    (w : List Char) : StepRes :=
  match first_word_scan ctx M st.config st.pos w 0 0 with
  | .nbspLead =>
    let cw := st.config.peek_next_width 1
    let r := st.config.consume 1
    .emit (.space cw 1)
      { st with current := .firstWord (w.drop 1), config := r.2, pos := st.pos + cw }
  | .nbspMid i width =>
    .emit (.printed (w.take i))
      { st with current := .firstWord (w.drop i), pos := st.pos + width }
  | .overflowStart => .cont { st with current := .done }
  | .overflowMid i width =>
    .emit (.printed (w.take i))
      (finish_state { st with pos := st.pos + width } (.word (w.drop i)))
  | .allFit width =>
    .emit (.printed w) (next_token_state { st with pos := st.pos + width })

/-- One iteration of the `loop` of `<LineElementParser as Iterator>::next`
(src/rendering/line_iter.rs:199-467), dispatching on the current state. -/
def line_step (ctx : LineCtx) (M : List Char → Nat) (st : LineState) : StepRes :=
  match st.current with
  | .done => .stop
  | .wordSt w => word_state_arm ctx M st w
  | .firstWord w => first_word_arm ctx M st w
  | .processToken t =>
    match t with
    | .whitespace n => whitespace_arm ctx M st n
    | .brk oc => break_arm ctx M st oc
    | .word w =>
      if fits_in_line ctx st.pos (M w) then
        .cont { st with current := .wordSt w, first_word := false }
      else if st.first_word then
        .cont { st with current := .firstWord w, first_word := false }
      else .cont (finish_state st (.word w))
    | .tab =>
      let sp := next_tab_width ctx st.pos
      if fits_in_line ctx st.pos sp then
        .emit (.space sp 0) (next_token_state { st with pos := st.pos + sp })
      else .emit (.space (cursor_space ctx st.pos) 0) (finish_wrapped_state st)
    | .newLine => .cont (finish_state st .newLine)
    | .carriageReturn => .cont (finish_state st .carriageReturn)

/-! Running one line.

`StyledLineRenderer::draw` (src/rendering/line.rs:136-196) runs the shared
element parser twice: once with a measuring element handler and once with
the rendering element handler.  A handler receives the emitted render
elements and threads its own state; the element parser's control flow does
not depend on it.
-/

/-- An element handler (the `ElementHandler` capability used by
src/rendering/line.rs): handler state updated per emitted element. -/
structure Handler (σ : Type) where
  on_elem : σ → Elem → σ

/-- Run the line element parser to completion, feeding every emitted element
to the handler.  Returns the final handler state, the carried token left for
the next line, the remaining parser tokens and the final cursor position;
`none` when out of fuel. -/
def run_fuel (ctx : LineCtx) (M : List Char → Nat) (H : Handler σ) :
    Nat → LineState → σ → Option (σ × Option Tok × List Tok × Nat)
  | 0, _, _ => none
  | fuel + 1, st, s =>
    match line_step ctx M st with
    | .stop => some (s, st.carried, st.tokens, st.pos)
    | .cont st1 => run_fuel ctx M H fuel st1 s
    | .emit e st1 => run_fuel ctx M H fuel st1 (H.on_elem s e)

/-- The collecting handler: records the emitted elements in order. -/
def collect_handler : Handler (List Elem) :=
  ⟨fun l e => l ++ [e]⟩

/-- Modelled from the spec: the measuring element handler of the measure
pass (`style.measure_line`, src/style/mod.rs is not under src/).  Per
section 4.5 it runs the same element parser with no pixel output,
accumulating the width and the space count of the line. -/
def measuring_handler (M : List Char → Nat) : Handler (Nat × Nat) :=
  ⟨fun s e =>
    match e with
    | .space w c => (s.1 + w, s.2 + c)
    | .printed t => (s.1 + M t, s.2)⟩

/-- Run one line collecting its render elements. -/
def line_run (ctx : LineCtx) (M : List Char → Nat) (fuel : Nat)
    (st : LineState) : Option (List Elem × Option Tok × List Tok × Nat) :=
  run_fuel ctx M collect_handler fuel st []

/-- True for the carried tokens that `LineElementParser::new` discards; from
the filter in src/rendering/line_iter.rs:85-89. -/
def discarded_carried : Tok → Bool
  | .newLine => true
  | .carriageReturn => true
  | .brk none => true
  | _ => false

/-- Initial state built by `LineElementParser::new`
(src/rendering/line_iter.rs:78-102): take the carried token unless it is a
line terminator or a bare wrap marker, otherwise the parser's next token. -/
def mk_line_state (cfg : SpaceConfig) (pos : Nat) (carried : Option Tok)
    (tokens : List Tok) : LineState :=
  match carried with
  | some t =>
    if discarded_carried t then
      match tokens with
      | [] => ⟨[], .done, cfg, pos, true, none⟩
      | t1 :: ts => ⟨ts, .processToken t1, cfg, pos, true, none⟩
    else ⟨tokens, .processToken t, cfg, pos, true, none⟩
  | none =>
    match tokens with
    | [] => ⟨[], .done, cfg, pos, true, none⟩
    | t1 :: ts => ⟨ts, .processToken t1, cfg, pos, true, none⟩

/-! Termination measure.  Every `cont` or `emit` step strictly decreases
`state_measure`, so `state_measure st + 1` fuel always suffices. -/

/-- Size of a token for the termination measure: any token weighs at least
`2` and strictly bounds every carried token its processing can produce. -/
def tok_size : Tok → Nat
  | .word w => 2 * w.length + 2
  | .whitespace n => n + 2
  | .brk (some c) => 2 * c.length + 4
  | .brk none => 2
  | .tab => 2
  | .newLine => 2
  | .carriageReturn => 2

/-- Measure contribution of the state-machine state. -/
def lstate_size : LState → Nat
  | .processToken t => tok_size t + 2
  | .wordSt w => 2 * w.length + 3
  | .firstWord w => 2 * w.length + 3
  | .done => 0

/-- Measure contribution of the carried-token slot.  Tokens that the next
`LineElementParser::new` will discard weigh only `1`. -/
def slot_size : Option Tok → Nat
  | none => 0
  | some t => if discarded_carried t then 1 else tok_size t

/-- Termination measure of a line-parser state. -/
def state_measure (st : LineState) : Nat :=
  (st.tokens.map tok_size).sum + lstate_size st.current + slot_size st.carried


/-- The successor state of a step, when the step did not stop. -/
def step_next : StepRes → Option LineState
  | .emit _ st => some st
  | .cont st => some st
  | .stop => none

theorem count_widest_go_le (cfg : SpaceConfig) (avail : Nat) :
    ∀ (fuel k : Nat), count_widest_go cfg avail k fuel ≤ k + fuel := by
  intro fuel
  induction fuel with
  | zero => intro k; simp [count_widest_go]
  | succ f ih =>
    intro k
    simp only [count_widest_go]
    split
    · have := ih (k + 1)
      omega
    · omega

theorem count_widest_le (cfg : SpaceConfig) (avail n : Nat) :
    count_widest_space_seq cfg avail n ≤ n := by
  have := count_widest_go_le cfg avail n 0
  simpa [count_widest_space_seq] using this

theorem first_word_scan_nbsp_ne_nil {ctx : LineCtx} {M : List Char → Nat}
    {cfg : SpaceConfig} {pos : Nat} {w : List Char} {i w0 : Nat} {r : FWOut}
    (h : first_word_scan ctx M cfg pos w i w0 = r) (hr : w = []) :
    r = .allFit w0 := by
  subst hr
  simpa [first_word_scan] using h.symm

theorem first_word_scan_mid_pos {ctx : LineCtx} {M : List Char → Nat}
    {cfg : SpaceConfig} {pos : Nat} :
    ∀ {w : List Char} {i w0 j width : Nat},
      first_word_scan ctx M cfg pos w i w0 = .nbspMid j width → j ≠ 0 := by
  intro w
  induction w with
  | nil => intro i w0 j width h; simp [first_word_scan] at h
  | cons c cs ih =>
    intro i w0 j width h
    simp only [first_word_scan] at h
    split_ifs at h <;>
      first
        | exact ih h
        | (simp only [FWOut.nbspMid.injEq] at h; omega)

theorem line_step_stop {ctx : LineCtx} {M : List Char → Nat} {st : LineState}
    (h : line_step ctx M st = .stop) : st.current = .done := by
  obtain ⟨ts, cur, cfg, pos, fw, slot⟩ := st
  cases cur with
  | done => rfl
  | wordSt w =>
    exfalso
    simp only [line_step, word_state_arm] at h
    repeat' split at h
    all_goals simp_all
  | firstWord w =>
    exfalso
    simp only [line_step, first_word_arm] at h
    repeat' split at h
    all_goals simp_all
  | processToken t =>
    exfalso
    cases t <;>
      simp only [line_step, whitespace_arm, break_arm, word_state_arm,
        whitespace_render] at h <;>
      (repeat' split at h) <;> simp_all

theorem next_token_state_measure (st : LineState) :
    state_measure (next_token_state st)
      ≤ (st.tokens.map tok_size).sum + 2 + slot_size st.carried := by
  obtain ⟨ts, cur, cfg, pos, fw, slot⟩ := st
  cases ts with
  | nil => simp [next_token_state, state_measure, lstate_size]
  | cons t ts =>
    simp [next_token_state, state_measure, lstate_size]
    omega

theorem finish_state_measure (st : LineState) (t : Tok) :
    state_measure (finish_state st t)
      = (st.tokens.map tok_size).sum + slot_size (some t) := by
  simp [finish_state, state_measure, lstate_size]

theorem slot_size_le (t : Tok) : slot_size (some t) ≤ tok_size t := by
  cases t with
  | brk oc => cases oc <;> simp [slot_size, discarded_carried, tok_size]
  | _ => simp [slot_size, discarded_carried, tok_size]

theorem whitespace_render_decreases {ctx : LineCtx} {ts : List Tok}
    {cfg : SpaceConfig} {pos : Nat} {fw fw1 : Bool} {slot : Option Tok}
    {b : Bool} {n : Nat} {st1 : LineState}
    (h : step_next (whitespace_render ctx
        ⟨ts, .processToken (.whitespace n), cfg, pos, fw1, slot⟩ b n) = some st1) :
    state_measure st1
      < state_measure ⟨ts, .processToken (.whitespace n), cfg, pos, fw, slot⟩ := by
  have hk1 := count_widest_le cfg (cursor_space ctx pos) (n - 1)
  have hk2 := count_widest_le cfg (cursor_space ctx pos) n
  simp only [whitespace_render, finish_wrapped_state] at h
  repeat' split at h
  all_goals simp only [step_next, Option.some.injEq] at h
  all_goals subst h
  all_goals
    first
      | (rw [finish_state_measure]
         simp [state_measure, lstate_size, tok_size, slot_size, discarded_carried]
         try omega)
      | exact lt_of_le_of_lt (next_token_state_measure _)
          (by simp [state_measure, lstate_size, tok_size]; try omega)

theorem tok_size_pos (t : Tok) : 0 < tok_size t := by
  cases t with
  | brk oc => cases oc <;> simp [tok_size]
  | _ => simp [tok_size]

theorem line_step_decreases {ctx : LineCtx} {M : List Char → Nat}
    {st st1 : LineState} (h : step_next (line_step ctx M st) = some st1) :
    state_measure st1 < state_measure st := by
  obtain ⟨ts, cur, cfg, pos, fw, slot⟩ := st
  cases cur with
  | done => simp [line_step, step_next] at h
  | wordSt w =>
    simp only [line_step, word_state_arm] at h
    cases hidx : w.findIdx? (fun c => c = nbsp) with
    | none =>
      rw [hidx] at h
      simp only [step_next, Option.some.injEq] at h
      subst h
      refine lt_of_le_of_lt (next_token_state_measure _) ?_
      simp [state_measure, lstate_size]
    | some i =>
      have hne : w ≠ [] := by
        intro h0
        rw [h0] at hidx
        simp at hidx
      have hlen : 0 < w.length := List.length_pos.mpr hne
      rw [hidx] at h
      cases i with
      | zero =>
        simp only [step_next, Option.some.injEq] at h
        subst h
        simp [state_measure, lstate_size]
        omega
      | succ j =>
        simp only [step_next, Option.some.injEq] at h
        subst h
        simp [state_measure, lstate_size]
        omega
  | firstWord w =>
    simp only [line_step, first_word_arm] at h
    cases hscan : first_word_scan ctx M cfg pos w 0 0 with
    | nbspLead =>
      have hne : w ≠ [] := by
        intro h0
        have h1 := first_word_scan_nbsp_ne_nil hscan h0
        simp at h1
      have hlen : 0 < w.length := List.length_pos.mpr hne
      rw [hscan] at h
      simp only [step_next, Option.some.injEq] at h
      subst h
      simp [state_measure, lstate_size]
      omega
    | nbspMid i width =>
      have hne : w ≠ [] := by
        intro h0
        have h1 := first_word_scan_nbsp_ne_nil hscan h0
        simp at h1
      have hlen : 0 < w.length := List.length_pos.mpr hne
      have hi : i ≠ 0 := first_word_scan_mid_pos hscan
      rw [hscan] at h
      simp only [step_next, Option.some.injEq] at h
      subst h
      simp [state_measure, lstate_size]
      omega
    | overflowStart =>
      rw [hscan] at h
      simp only [step_next, Option.some.injEq] at h
      subst h
      simp [state_measure, lstate_size]
    | overflowMid i width =>
      rw [hscan] at h
      simp only [step_next, Option.some.injEq] at h
      subst h
      rw [finish_state_measure]
      simp [state_measure, lstate_size, tok_size, slot_size, discarded_carried]
      omega
    | allFit width =>
      rw [hscan] at h
      simp only [step_next, Option.some.injEq] at h
      subst h
      refine lt_of_le_of_lt (next_token_state_measure _) ?_
      simp [state_measure, lstate_size]
  | processToken t =>
    cases t <;>
      simp only [line_step, whitespace_arm, break_arm, finish_wrapped_state] at h <;>
      (repeat' split at h) <;>
      first
        | exact whitespace_render_decreases h
        | (simp only [step_next, Option.some.injEq] at h
           subst h
           first
             | (rw [finish_state_measure]
                simp [state_measure, lstate_size, tok_size, slot_size, discarded_carried]
                try omega)
             | exact lt_of_le_of_lt (next_token_state_measure _)
                 (by simp [state_measure, lstate_size, tok_size]
                     try omega
                     try exact tok_size_pos _)
             | (simp [state_measure, lstate_size, tok_size]; try omega))

theorem next_token_state_done {st : LineState}
    (h : (next_token_state st).current = .done) :
    st.tokens = [] ∧ next_token_state st = { st with current := .done } := by
  obtain ⟨ts, cur, cfg, pos, fw, slot⟩ := st
  cases ts with
  | nil => exact ⟨rfl, rfl⟩
  | cons t ts => simp [next_token_state] at h


/-! Driver-level measure.  `dmbound` bounds, for a running line, the measure
of the `(parser, carried token)` pair that the line can leave behind; it
never increases along a step, and the first step of a line strictly
decreases it when the initial token is not one of the discarded ones. -/

/-- Bound on the carried token producible from the current machine state. -/
def cbound : LState → Nat
  | .done => 0
  | .processToken t => slot_size (some t)
  | .wordSt _ => 0
  | .firstWord w => 2 * w.length

/-- Bound on the driver measure of the `(tokens, carried)` pair left by the
rest of the line run. -/
def dmbound (st : LineState) : Nat :=
  (st.tokens.map tok_size).sum + slot_size st.carried + cbound st.current

/-- The driver measure of the loop state of `StyledTextBox::draw`
(src/rendering/mod.rs:50-67): remaining parser tokens plus carried token. -/
def driver_dm (carried : Option Tok) (tokens : List Tok) : Nat :=
  (tokens.map tok_size).sum + slot_size carried

theorem next_token_dmbound (st : LineState) :
    dmbound (next_token_state st)
      ≤ (st.tokens.map tok_size).sum + slot_size st.carried := by
  obtain ⟨ts, cur, cfg, pos, fw, slot⟩ := st
  cases ts with
  | nil => simp [next_token_state, dmbound, cbound]
  | cons t ts =>
    have := slot_size_le t
    simp [next_token_state, dmbound, cbound]
    omega

theorem finish_dmbound (st : LineState) (t : Tok) :
    dmbound (finish_state st t)
      = (st.tokens.map tok_size).sum + slot_size (some t) := by
  simp [finish_state, dmbound, cbound]

theorem first_word_scan_overflow_pos {ctx : LineCtx} {M : List Char → Nat}
    {cfg : SpaceConfig} {pos : Nat} :
    ∀ {w : List Char} {i w0 j width : Nat},
      first_word_scan ctx M cfg pos w i w0 = .overflowMid j width → j ≠ 0 := by
  intro w
  induction w with
  | nil => intro i w0 j width h; simp [first_word_scan] at h
  | cons c cs ih =>
    intro i w0 j width h
    simp only [first_word_scan] at h
    split_ifs at h <;>
      first
        | exact ih h
        | (simp only [FWOut.overflowMid.injEq] at h; omega)

theorem whitespace_render_dmbound {ctx : LineCtx} {ts : List Tok}
    {cfg : SpaceConfig} {pos : Nat} {fw fw1 : Bool} {slot : Option Tok}
    {b : Bool} {n : Nat} {st1 : LineState}
    (h : step_next (whitespace_render ctx
        ⟨ts, .processToken (.whitespace n), cfg, pos, fw1, slot⟩ b n) = some st1) :
    dmbound st1
      ≤ dmbound ⟨ts, .processToken (.whitespace n), cfg, pos, fw, slot⟩ := by
  simp only [whitespace_render, finish_wrapped_state] at h
  repeat' split at h
  all_goals simp only [step_next, Option.some.injEq] at h
  all_goals subst h
  all_goals
    first
      | (rw [finish_dmbound]
         simp [dmbound, cbound, tok_size, slot_size, discarded_carried]
         try omega)
      | (refine le_trans (next_token_dmbound _) ?_
         simp [dmbound, cbound, tok_size, slot_size, discarded_carried]
         try omega)

theorem step_dmbound {ctx : LineCtx} {M : List Char → Nat}
    {st st1 : LineState} (h : step_next (line_step ctx M st) = some st1) :
    dmbound st1 ≤ dmbound st := by
  obtain ⟨ts, cur, cfg, pos, fw, slot⟩ := st
  cases cur with
  | done => simp [line_step, step_next] at h
  | wordSt w =>
    simp only [line_step, word_state_arm] at h
    cases hidx : w.findIdx? (fun c => c = nbsp) with
    | none =>
      rw [hidx] at h
      simp only [step_next, Option.some.injEq] at h
      subst h
      refine le_trans (next_token_dmbound _) ?_
      simp [dmbound, cbound]
    | some i =>
      rw [hidx] at h
      cases i with
      | zero =>
        simp only [step_next, Option.some.injEq] at h
        subst h
        simp [dmbound, cbound]
      | succ j =>
        simp only [step_next, Option.some.injEq] at h
        subst h
        simp [dmbound, cbound]
  | firstWord w =>
    simp only [line_step, first_word_arm] at h
    cases hscan : first_word_scan ctx M cfg pos w 0 0 with
    | nbspLead =>
      rw [hscan] at h
      simp only [step_next, Option.some.injEq] at h
      subst h
      simp [dmbound, cbound]
      try omega
    | nbspMid i width =>
      rw [hscan] at h
      simp only [step_next, Option.some.injEq] at h
      subst h
      simp [dmbound, cbound]
      try omega
    | overflowStart =>
      rw [hscan] at h
      simp only [step_next, Option.some.injEq] at h
      subst h
      simp [dmbound, cbound]
    | overflowMid i width =>
      have hi : i ≠ 0 := first_word_scan_overflow_pos hscan
      have hne : w ≠ [] := by
        intro h0
        have h1 := first_word_scan_nbsp_ne_nil hscan h0
        simp at h1
      have hlen : 0 < w.length := List.length_pos.mpr hne
      rw [hscan] at h
      simp only [step_next, Option.some.injEq] at h
      subst h
      rw [finish_dmbound]
      simp [dmbound, cbound, slot_size, discarded_carried, tok_size]
      omega
    | allFit width =>
      rw [hscan] at h
      simp only [step_next, Option.some.injEq] at h
      subst h
      refine le_trans (next_token_dmbound _) ?_
      simp [dmbound, cbound]
  | processToken t =>
    cases t <;>
      simp only [line_step, whitespace_arm, break_arm, finish_wrapped_state] at h <;>
      (repeat' split at h) <;>
      first
        | exact whitespace_render_dmbound h
        | (simp only [step_next, Option.some.injEq] at h
           subst h
           first
             | (rw [finish_dmbound]
                simp [dmbound, cbound, tok_size, slot_size, discarded_carried]
                try omega)
             | (refine le_trans (next_token_dmbound _) ?_
                simp [dmbound, cbound, tok_size, slot_size, discarded_carried]
                try omega)
             | (simp [dmbound, cbound, tok_size, slot_size, discarded_carried]
                try omega))

theorem whitespace_render_first_dec {ctx : LineCtx} {ts : List Tok}
    {cfg : SpaceConfig} {pos : Nat} {fw fw1 : Bool} {n : Nat} {st1 : LineState}
    (h : step_next (whitespace_render ctx
        ⟨ts, .processToken (.whitespace n), cfg, pos, fw1, none⟩ false n) = some st1) :
    dmbound st1 + 1
      ≤ dmbound ⟨ts, .processToken (.whitespace n), cfg, pos, fw, none⟩ := by
  have hk2 := count_widest_le cfg (cursor_space ctx pos) n
  simp only [whitespace_render, finish_wrapped_state] at h
  repeat' split at h
  all_goals simp only [step_next, Option.some.injEq] at h
  all_goals subst h
  all_goals
    first
      | (rw [finish_dmbound]
         simp [dmbound, cbound, tok_size, slot_size, discarded_carried]
         try omega)
      | (refine le_trans (Nat.add_le_add_right (next_token_dmbound _) 1) ?_
         simp [dmbound, cbound, tok_size, slot_size, discarded_carried]
         try omega)

theorem pt_first_dec {ctx : LineCtx} {M : List Char → Nat} {ts : List Tok}
    {cfg : SpaceConfig} {pos : Nat} {t : Tok} {st1 : LineState}
    (hd : discarded_carried t = false)
    (h : step_next (line_step ctx M
        ⟨ts, .processToken t, cfg, pos, true, none⟩) = some st1) :
    dmbound st1 + 1 ≤ dmbound ⟨ts, .processToken t, cfg, pos, true, none⟩ := by
  cases t with
  | whitespace n =>
    simp only [line_step, whitespace_arm] at h
    split at h
    · split at h
      · exact whitespace_render_first_dec h
      · simp only [step_next, Option.some.injEq] at h
        subst h
        refine le_trans (Nat.add_le_add_right (next_token_dmbound _) 1) ?_
        simp [dmbound, cbound, tok_size, slot_size, discarded_carried]
    · simp_all
  | word w =>
    simp only [line_step] at h
    split at h
    · simp only [step_next, Option.some.injEq] at h
      subst h
      simp [dmbound, cbound, tok_size, slot_size, discarded_carried]
      try omega
    · split at h
      · simp only [step_next, Option.some.injEq] at h
        subst h
        simp [dmbound, cbound, tok_size, slot_size, discarded_carried]
        try omega
      · simp_all
  | brk oc =>
    cases oc with
    | none => simp [discarded_carried] at hd
    | some c =>
      simp only [line_step, break_arm, finish_wrapped_state] at h
      repeat' split at h
      all_goals simp only [step_next, Option.some.injEq] at h
      all_goals subst h
      all_goals
        first
          | (rw [finish_dmbound]
             simp [dmbound, cbound, tok_size, slot_size, discarded_carried]
             try omega)
          | (refine le_trans (Nat.add_le_add_right (next_token_dmbound _) 1) ?_
             simp [dmbound, cbound, tok_size, slot_size, discarded_carried]
             try omega)
  | tab =>
    simp only [line_step, finish_wrapped_state] at h
    split at h
    · simp only [step_next, Option.some.injEq] at h
      subst h
      refine le_trans (Nat.add_le_add_right (next_token_dmbound _) 1) ?_
      simp [dmbound, cbound, tok_size, slot_size, discarded_carried]
    · simp only [step_next, Option.some.injEq] at h
      subst h
      rw [finish_dmbound]
      simp [dmbound, cbound, tok_size, slot_size, discarded_carried]
  | newLine => simp [discarded_carried] at hd
  | carriageReturn => simp [discarded_carried] at hd

theorem run_fuel_isSome (ctx : LineCtx) (M : List Char → Nat) {σ : Type}
    (H : Handler σ) :
    ∀ (fuel : Nat) (st : LineState) (s : σ), state_measure st < fuel →
      (run_fuel ctx M H fuel st s).isSome := by
  intro fuel
  induction fuel with
  | zero => intro st s hm; omega
  | succ f ih =>
    intro st s hm
    simp only [run_fuel]
    cases hstep : line_step ctx M st with
    | stop => simp
    | cont st1 =>
      have hd := line_step_decreases
        (show step_next (line_step ctx M st) = some st1 by rw [hstep]; rfl)
      exact ih st1 s (by omega)
    | emit e st1 =>
      have hd := line_step_decreases
        (show step_next (line_step ctx M st) = some st1 by rw [hstep]; rfl)
      exact ih st1 _ (by omega)

theorem run_final_dm (ctx : LineCtx) (M : List Char → Nat) {σ : Type}
    (H : Handler σ) :
    ∀ (fuel : Nat) (st : LineState) (s : σ) (r : σ × Option Tok × List Tok × Nat),
      run_fuel ctx M H fuel st s = some r →
      driver_dm r.2.1 r.2.2.1 ≤ dmbound st := by
  intro fuel
  induction fuel with
  | zero => intro st s r h; simp [run_fuel] at h
  | succ f ih =>
    intro st s r h
    simp only [run_fuel] at h
    cases hstep : line_step ctx M st with
    | stop =>
      rw [hstep] at h
      simp only [Option.some.injEq] at h
      subst h
      simp [driver_dm, dmbound]
    | cont st1 =>
      rw [hstep] at h
      have hb := step_dmbound
        (show step_next (line_step ctx M st) = some st1 by rw [hstep]; rfl)
      have := ih st1 s r h
      omega
    | emit e st1 =>
      rw [hstep] at h
      have hb := step_dmbound
        (show step_next (line_step ctx M st) = some st1 by rw [hstep]; rfl)
      have := ih st1 (H.on_elem s e) r h
      omega

theorem run_from_pt_dm {ctx : LineCtx} {M : List Char → Nat} {σ : Type}
    {H : Handler σ} {fuel : Nat} {ts : List Tok} {cfg : SpaceConfig}
    {pos : Nat} {t : Tok} {s : σ} {r : σ × Option Tok × List Tok × Nat}
    (hd : discarded_carried t = false)
    (h : run_fuel ctx M H fuel ⟨ts, .processToken t, cfg, pos, true, none⟩ s
          = some r) :
    driver_dm r.2.1 r.2.2.1 + 1
      ≤ dmbound ⟨ts, .processToken t, cfg, pos, true, none⟩ := by
  cases fuel with
  | zero => simp [run_fuel] at h
  | succ f =>
    simp only [run_fuel] at h
    cases hstep : line_step ctx M ⟨ts, .processToken t, cfg, pos, true, none⟩ with
    | stop => exact absurd (line_step_stop hstep) (by simp)
    | cont st1 =>
      rw [hstep] at h
      have h1 := pt_first_dec hd
        (show step_next (line_step ctx M
          ⟨ts, .processToken t, cfg, pos, true, none⟩) = some st1 by rw [hstep]; rfl)
      have h2 := run_final_dm ctx M H f st1 s r h
      omega
    | emit e st1 =>
      rw [hstep] at h
      have h1 := pt_first_dec hd
        (show step_next (line_step ctx M
          ⟨ts, .processToken t, cfg, pos, true, none⟩) = some st1 by rw [hstep]; rfl)
      have h2 := run_final_dm ctx M H f st1 (H.on_elem s e) r h
      omega

/-- One driver iteration (the line drawn by `StyledLineRenderer::draw` as it
affects the parser and the carried token): build the line state as
`LineElementParser::new` does and run the line to completion. -/
def line_run_carry (ctx : LineCtx) (M : List Char → Nat) (cfg : SpaceConfig)
    (carried : Option Tok) (tokens : List Tok) : Option Tok × List Tok :=
  match line_run ctx M
    (state_measure (mk_line_state cfg 0 carried tokens) + 1)
    (mk_line_state cfg 0 carried tokens) with
  | some r => (r.2.1, r.2.2.1)
  | none => (none, [])

/-- The driver loop of `StyledTextBox::draw` (src/rendering/mod.rs:50-67):
`while carried.is_some() || !parser.is_empty()` draw one line.  The space
config used for each line is chosen by an arbitrary policy function
(covering every alignment).  Fuel-indexed; `some ()` is returned when the
loop exits. -/
def driver_fuel (ctx : LineCtx) (M : List Char → Nat)
    (cfgChoose : Option Tok → List Tok → SpaceConfig) :
    Nat → Option Tok → List Tok → Option Unit
  | 0, _, _ => none
  | f + 1, carried, tokens =>
    if carried = none ∧ tokens = [] then some ()
    else
      driver_fuel ctx M cfgChoose f
        (line_run_carry ctx M (cfgChoose carried tokens) carried tokens).1
        (line_run_carry ctx M (cfgChoose carried tokens) carried tokens).2

theorem line_run_carry_dec (ctx : LineCtx) (M : List Char → Nat)
    (cfg : SpaceConfig) (carried : Option Tok) (tokens : List Tok)
    (hcond : ¬(carried = none ∧ tokens = [])) :
    driver_dm (line_run_carry ctx M cfg carried tokens).1
        (line_run_carry ctx M cfg carried tokens).2
      < driver_dm carried tokens := by
  have hsome := run_fuel_isSome ctx M collect_handler
    (state_measure (mk_line_state cfg 0 carried tokens) + 1)
    (mk_line_state cfg 0 carried tokens) [] (by omega)
  obtain ⟨r, hr⟩ := Option.isSome_iff_exists.mp hsome
  have hlr : line_run ctx M
      (state_measure (mk_line_state cfg 0 carried tokens) + 1)
      (mk_line_state cfg 0 carried tokens) = some r := hr
  simp only [line_run_carry, hlr]
  cases carried with
  | some t =>
    cases hdt : discarded_carried t with
    | false =>
      have hmk : mk_line_state cfg 0 (some t) tokens
          = ⟨tokens, .processToken t, cfg, 0, true, none⟩ := by
        simp [mk_line_state, hdt]
      rw [hmk] at hlr
      have h1 := run_from_pt_dm hdt hlr
      simp only [driver_dm, dmbound, cbound, slot_size, hdt] at h1 ⊢
      simp only [Bool.false_eq_true, if_false] at h1 ⊢
      omega
    | true =>
      cases tokens with
      | nil =>
        have hmk : mk_line_state cfg 0 (some t) []
            = ⟨[], .done, cfg, 0, true, none⟩ := by
          simp [mk_line_state, hdt]
        rw [hmk] at hlr
        simp only [line_run, run_fuel, line_step] at hlr
        simp only [Option.some.injEq] at hlr
        subst hlr
        simp [driver_dm, slot_size, hdt]
      | cons t1 ts =>
        have hmk : mk_line_state cfg 0 (some t) (t1 :: ts)
            = ⟨ts, .processToken t1, cfg, 0, true, none⟩ := by
          simp [mk_line_state, hdt]
        rw [hmk] at hlr
        have h2 := run_final_dm ctx M collect_handler _ _ _ _ hlr
        have h3 := slot_size_le t1
        simp only [driver_dm, dmbound, cbound, slot_size, hdt,
          List.map_cons, List.sum_cons, if_true] at h2 h3 ⊢
        omega
  | none =>
    cases tokens with
    | nil => exact absurd ⟨rfl, rfl⟩ hcond
    | cons t1 ts =>
      have hmk : mk_line_state cfg 0 none (t1 :: ts)
          = ⟨ts, .processToken t1, cfg, 0, true, none⟩ := by
        simp [mk_line_state]
      rw [hmk] at hlr
      cases hdt : discarded_carried t1 with
      | false =>
        have h1 := run_from_pt_dm hdt hlr
        simp only [driver_dm, dmbound, cbound, slot_size, hdt,
          List.map_cons, List.sum_cons] at h1 ⊢
        simp only [Bool.false_eq_true, if_false] at h1 ⊢
        omega
      | true =>
        have h2 := run_final_dm ctx M collect_handler _ _ _ _ hlr
        have ht2 : tok_size t1 = 2 := by
          cases t1 with
          | brk oc =>
            cases oc with
            | none => rfl
            | some c => simp [discarded_carried] at hdt
          | newLine => rfl
          | carriageReturn => rfl
          | word w => simp [discarded_carried] at hdt
          | whitespace n => simp [discarded_carried] at hdt
          | tab => simp [discarded_carried] at hdt
        simp only [driver_dm, dmbound, cbound, slot_size, hdt, ht2,
          List.map_cons, List.sum_cons, if_true] at h2 ⊢
        omega

theorem driver_fuel_isSome (ctx : LineCtx) (M : List Char → Nat)
    (cfgChoose : Option Tok → List Tok → SpaceConfig) :
    ∀ (f : Nat) (carried : Option Tok) (tokens : List Tok),
      driver_dm carried tokens < f →
      (driver_fuel ctx M cfgChoose f carried tokens).isSome := by
  intro f
  induction f with
  | zero => intro carried tokens hm; omega
  | succ g ih =>
    intro carried tokens hm
    simp only [driver_fuel]
    split
    · simp
    · refine ih _ _ ?_
      have := line_run_carry_dec ctx M (cfgChoose carried tokens) carried tokens
        (by assumption)
      omega

theorem run_fuel_handler_proj (ctx : LineCtx) (M : List Char → Nat)
    {σ₁ σ₂ : Type} (H₁ : Handler σ₁) (H₂ : Handler σ₂) :
    ∀ (fuel : Nat) (st : LineState) (s₁ : σ₁) (s₂ : σ₂),
      (run_fuel ctx M H₁ fuel st s₁).map (fun r => r.2)
        = (run_fuel ctx M H₂ fuel st s₂).map (fun r => r.2) := by
  intro fuel
  induction fuel with
  | zero => intro st s₁ s₂; simp [run_fuel]
  | succ f ih =>
    intro st s₁ s₂
    simp only [run_fuel]
    cases line_step ctx M st with
    | stop => simp
    | cont st1 => exact ih st1 s₁ s₂
    | emit e st1 => exact ih st1 (H₁.on_elem s₁ e) (H₂.on_elem s₂ e)

theorem run_collect_shift (ctx : LineCtx) (M : List Char → Nat) :
    ∀ (fuel : Nat) (st : LineState) (acc : List Elem),
      run_fuel ctx M collect_handler fuel st acc
        = (run_fuel ctx M collect_handler fuel st []).map
            (fun r => (acc ++ r.1, r.2)) := by
  intro fuel
  induction fuel with
  | zero => intro st acc; simp [run_fuel]
  | succ f ih =>
    intro st acc
    simp only [run_fuel]
    cases line_step ctx M st with
    | stop => simp
    | cont st1 => exact ih st1 acc
    | emit e st1 =>
      show run_fuel ctx M collect_handler f st1 (acc ++ [e])
          = (run_fuel ctx M collect_handler f st1 ([] ++ [e])).map
              (fun r => (acc ++ r.1, r.2))
      rw [ih st1 (acc ++ [e]), ih st1 ([] ++ [e])]
      cases run_fuel ctx M collect_handler f st1 [] with
      | none => simp
      | some r => simp

theorem run_fuel_fold (ctx : LineCtx) (M : List Char → Nat) {σ : Type}
    (H : Handler σ) :
    ∀ (fuel : Nat) (st : LineState) (s : σ),
      run_fuel ctx M H fuel st s
        = (line_run ctx M fuel st).map
            (fun r => (r.1.foldl H.on_elem s, r.2)) := by
  intro fuel
  induction fuel with
  | zero => intro st s; simp [run_fuel, line_run]
  | succ f ih =>
    intro st s
    simp only [line_run, run_fuel]
    cases line_step ctx M st with
    | stop => simp
    | cont st1 => exact ih st1 s
    | emit e st1 =>
      show run_fuel ctx M H f st1 (H.on_elem s e)
          = (run_fuel ctx M collect_handler f st1 ([] ++ [e])).map
              (fun r => (r.1.foldl H.on_elem s, r.2))
      rw [ih st1 (H.on_elem s e), run_collect_shift ctx M f st1 ([] ++ [e])]
      simp only [line_run]
      cases run_fuel ctx M collect_handler f st1 [] with
      | none => simp
      | some r => simp

/-- C1: the measurement pass and the render pass of a line make identical
wrap decisions.  The per-line element parser is one routine shared by every
element handler: for the same line context, string-measure function,
initial state (same parser tokens, same initial carried token) and fuel,
the measuring handler of the measure pass and the collecting handler of the
render pass consume the same tokens, leave the same carried-token-after and
the same final cursor position (hence the same line width); moreover any
handler's result is the fold of that handler over the one shared sequence
of emitted render elements. -/
theorem measure_render_agreement (ctx : LineCtx) (M : List Char → Nat)
    (fuel : Nat) (st : LineState) :
    ((run_fuel ctx M (measuring_handler M) fuel st (0, 0)).map (fun r => r.2)
        = (run_fuel ctx M collect_handler fuel st []).map (fun r => r.2))
      ∧ (∀ (σ : Type) (H : Handler σ) (s : σ),
          run_fuel ctx M H fuel st s
            = (line_run ctx M fuel st).map
                (fun r => (r.1.foldl H.on_elem s, r.2))) :=
  ⟨run_fuel_handler_proj ctx M (measuring_handler M) collect_handler fuel st (0, 0) [],
   fun _ H s => run_fuel_fold ctx M H fuel st s⟩

/-! Space distribution of the justified renderer
(src/alignment/justified.rs). -/

/-- Widths of the successive whitespace blocks drawn from a space config by
repeated `next_space_width` calls. -/
def space_widths : SpaceConfig → Nat → List Nat
  | _, 0 => []
  | cfg, k + 1 => cfg.next_space_width.1 :: space_widths cfg.next_space_width.2 k

theorem next_space_width_zero (w : Nat) :
    SpaceConfig.next_space_width ⟨w, 0⟩ = (w, ⟨w, 0⟩) := rfl

theorem next_space_width_succ (w m : Nat) :
    SpaceConfig.next_space_width ⟨w, m + 1⟩ = (w + 1, ⟨w, m⟩) := by
  simp [SpaceConfig.next_space_width]

theorem space_widths_map (w : Nat) : ∀ (k s : Nat),
    space_widths ⟨w, s⟩ k
      = (List.range k).map (fun i => if i < s then w + 1 else w) := by
  intro k
  induction k with
  | zero => intro s; simp [space_widths]
  | succ n ih =>
    intro s
    cases s with
    | zero =>
      simp only [space_widths, next_space_width_zero, ih 0]
      rw [List.range_succ_eq_map]
      simp only [List.map_cons, List.map_map]
      have hc1 : ((fun i : Nat => if i < 0 then w + 1 else w) ∘ Nat.succ)
          = (fun _ : Nat => w) := by
        funext i
        simp
      rw [hc1]
      simp
    | succ m =>
      simp only [space_widths, next_space_width_succ, ih m]
      rw [List.range_succ_eq_map]
      simp [List.map_map, Nat.succ_lt_succ_iff, Function.comp]

theorem space_widths_sum (w : Nat) : ∀ (k s : Nat),
    (space_widths ⟨w, s⟩ k).sum = k * w + min s k := by
  intro k
  induction k with
  | zero => intro s; simp [space_widths]
  | succ n ih =>
    intro s
    cases s with
    | zero =>
      simp only [space_widths, next_space_width_zero, List.sum_cons, ih 0]
      rw [Nat.succ_mul]
      omega
    | succ m =>
      simp only [space_widths, next_space_width_succ, List.sum_cons, ih m]
      rw [Nat.succ_mul, Nat.succ_min_succ]
      omega

/-- C6: on a stretched justified line the space config built by
`JustifiedState::NextLine` (`space_width = slack / whitespace_count`,
extras `= slack mod whitespace_count`, src/alignment/justified.rs:186-207)
renders the first `slack mod whitespace_count` whitespace blocks one pixel
wider than `slack / whitespace_count` and the remaining ones exactly that
wide, so the widths of the `whitespace_count` blocks sum to exactly
`line_width` minus the total word width. -/
theorem justified_space_distribution (line_width word_sum count : Nat)
    (hc : count ≠ 0) (_hw : word_sum ≤ line_width) :
    space_widths
        ⟨(line_width - word_sum) / count, (line_width - word_sum) % count⟩ count
        = (List.range count).map
            (fun i => if i < (line_width - word_sum) % count
              then (line_width - word_sum) / count + 1
              else (line_width - word_sum) / count)
      ∧ (space_widths
          ⟨(line_width - word_sum) / count, (line_width - word_sum) % count⟩
          count).sum = line_width - word_sum := by
  constructor
  · exact space_widths_map _ count _
  · rw [space_widths_sum]
    have hlt : (line_width - word_sum) % count < count :=
      Nat.mod_lt _ (Nat.pos_of_ne_zero hc)
    rw [min_eq_left (le_of_lt hlt)]
    have := Nat.div_add_mod (line_width - word_sum) count
    omega

/-- C6 witness: a slack of 7 pixels over 3 gaps is rendered as widths
3, 2, 2. -/
theorem justified_space_distribution_witness :
    space_widths ⟨(11 - 4) / 3, (11 - 4) % 3⟩ 3
        = (List.range 3).map
            (fun i => if i < (11 - 4) % 3 then (11 - 4) / 3 + 1 else (11 - 4) / 3)
      ∧ (space_widths ⟨(11 - 4) / 3, (11 - 4) % 3⟩ 3).sum = 11 - 4 :=
  justified_space_distribution 11 4 3 (by decide) (by decide)

/-- C10: a carried `NewLine`, `CarriageReturn` or bare `Break(None)` is
discarded by `LineElementParser::new`, which then starts from the parser's
next token, so such a token is never re-processed at the start of the next
line; every other carried token is processed first. -/
theorem carried_token_filter (cfg : SpaceConfig) (pos : Nat) (ts : List Tok) :
    (mk_line_state cfg pos (some .newLine) ts = mk_line_state cfg pos none ts)
      ∧ (mk_line_state cfg pos (some .carriageReturn) ts
          = mk_line_state cfg pos none ts)
      ∧ (mk_line_state cfg pos (some (.brk none)) ts
          = mk_line_state cfg pos none ts)
      ∧ (∀ w, mk_line_state cfg pos (some (.word w)) ts
          = ⟨ts, .processToken (.word w), cfg, pos, true, none⟩)
      ∧ (∀ n, mk_line_state cfg pos (some (.whitespace n)) ts
          = ⟨ts, .processToken (.whitespace n), cfg, pos, true, none⟩)
      ∧ (∀ c, mk_line_state cfg pos (some (.brk (some c))) ts
          = ⟨ts, .processToken (.brk (some c)), cfg, pos, true, none⟩)
      ∧ (mk_line_state cfg pos (some .tab) ts
          = ⟨ts, .processToken .tab, cfg, pos, true, none⟩)
      ∧ (∀ t rest, ts = t :: rest →
          mk_line_state cfg pos none ts
            = ⟨rest, .processToken t, cfg, pos, true, none⟩)
      ∧ (ts = [] → mk_line_state cfg pos none ts
          = ⟨[], .done, cfg, pos, true, none⟩) :=
  ⟨rfl, rfl, rfl, fun _ => rfl, fun _ => rfl, fun _ => rfl, rfl,
   fun _ _ h => by subst h; rfl, fun h => by subst h; rfl⟩

/-- C10 witness: a carried `NewLine` is discarded and the line starts with
the parser's next token, while a carried word is processed first. -/
theorem carried_token_filter_witness :
    (mk_line_state ⟨1, 0⟩ 0 (some .newLine) [.tab]
        = mk_line_state ⟨1, 0⟩ 0 none [.tab])
      ∧ mk_line_state ⟨1, 0⟩ 0 (some (.word [Char.ofNat 97])) [.tab]
          = ⟨[.tab], .processToken (.word [Char.ofNat 97]), ⟨1, 0⟩, 0, true, none⟩ :=
  ⟨(carried_token_filter ⟨1, 0⟩ 0 [.tab]).1,
   (carried_token_filter ⟨1, 0⟩ 0 [.tab]).2.2.2.1 [Char.ofNat 97]⟩


/-- C3 counterexample: inside a run of breaking whitespace, U+200B does not
terminate the run.  On the input SPACE, U+200B, SPACE the parser emits the
single token `Whitespace 2` (the U+200B is absorbed and the following space
is counted in the same token), not `Whitespace 1` followed by a `Break`. -/
theorem zwsp_whitespace_counterexample :
    parse_tokens [Char.ofNat 0x20, Char.ofNat 0x200B, Char.ofNat 0x20]
        = [PToken.whitespace 2]
      ∧ PToken.whitespace 2 ≠ PToken.whitespace 1
      ∧ (PToken.brk : PToken) ∉
          parse_tokens [Char.ofNat 0x20, Char.ofNat 0x200B, Char.ofNat 0x20] := by
  refine ⟨by decide, by decide, by decide⟩

/-- C3 (amended): a U+200B at the start of a token position is emitted as a
`Break` consuming exactly that code point; a U+200B inside a whitespace run
is absorbed — the run continues through it — and U+200B never contributes
to the count `n` of any `Whitespace` token: `n` always equals the number of
non-U+200B code points the token consumed. -/
theorem zwsp_break_or_absorbed :
    (∀ cs : List Char, parse_next (zwsp :: cs) = some (.brk, [zwsp], cs))
      ∧ (∀ s : List Char, (parse_segments s).all
          (fun p => match p.1 with
            | .whitespace n => (p.2.filter (fun c => c != zwsp)).length == n
            | _ => true) = true) := by
  constructor
  · intro cs
    rfl
  · intro s
    have h2 := (parse_segments_go_spec s.length s le_rfl).2
    refine List.all_eq_true.mpr ?_
    intro p hp
    have h3 := List.all_eq_true.mp h2 p hp
    obtain ⟨t, seg⟩ := p
    cases t with
    | whitespace n =>
      simp only [seg_ok, Bool.and_eq_true] at h3
      exact h3.1.1
    | newLine => rfl
    | carriageReturn => rfl
    | word w => rfl
    | brk => rfl

theorem run_fuel_emit_step {ctx : LineCtx} {M : List Char → Nat} {σ : Type}
    {H : Handler σ} {st : LineState} {e : Elem} {st1 : LineState}
    (hstep : line_step ctx M st = .emit e st1) (fuel : Nat) (s : σ) :
    run_fuel ctx M H (fuel + 1) st s = run_fuel ctx M H fuel st1 (H.on_elem s e) := by
  simp only [run_fuel, hstep]

theorem run_fuel_cont_step {ctx : LineCtx} {M : List Char → Nat} {σ : Type}
    {H : Handler σ} {st : LineState} {st1 : LineState}
    (hstep : line_step ctx M st = .cont st1) (fuel : Nat) (s : σ) :
    run_fuel ctx M H (fuel + 1) st s = run_fuel ctx M H fuel st1 s := by
  simp only [run_fuel, hstep]

theorem run_fuel_done {ctx : LineCtx} {M : List Char → Nat} {σ : Type}
    {H : Handler σ} {ts : List Tok} {cfg : SpaceConfig} {pos : Nat}
    {fw : Bool} {slot : Option Tok} (fuel : Nat) (s : σ) :
    run_fuel ctx M H (fuel + 1) ⟨ts, .done, cfg, pos, fw, slot⟩ s
      = some (s, slot, ts, pos) := by
  simp only [run_fuel, line_step]

/-- C9: line element parsing always terminates, and so does the text box
driver loop.  First conjunct: in the `FirstWord` state, when not even the
first character of the word fits (`start_idx == 0`), the parser finishes
via `finish_end_of_string`: the line run ends with no element emitted, the
carried-token slot untouched and the word consumed.  Second conjunct: for
every token stream, initial carried token and per-line space-config policy,
the driver loop of `StyledTextBox::draw` reaches its exit condition within
`driver_dm carried tokens + 1` iterations. -/
theorem line_parsing_terminates :
    (∀ (ctx : LineCtx) (M : List Char → Nat) (cfg : SpaceConfig)
        (ts : List Tok) (pos fuel : Nat) (fw : Bool) (slot : Option Tok)
        (c : Char) (w : List Char),
        fits_in_line ctx pos (if c = nbsp then cfg.peek_next_width 1 else M [c])
            = false →
        line_run ctx M (fuel + 2) ⟨ts, .firstWord (c :: w), cfg, pos, fw, slot⟩
          = some ([], slot, ts, pos))
      ∧ (∀ (ctx : LineCtx) (M : List Char → Nat)
          (cfgChoose : Option Tok → List Tok → SpaceConfig)
          (carried : Option Tok) (tokens : List Tok),
          (driver_fuel ctx M cfgChoose (driver_dm carried tokens + 1)
              carried tokens).isSome) := by
  constructor
  · intro ctx M cfg ts pos fuel fw slot c w hfit
    have hscan : first_word_scan ctx M cfg pos (c :: w) 0 0 = .overflowStart := by
      simp only [first_word_scan, Nat.zero_add, hfit]
      simp [hfit]
    have hstep : line_step ctx M ⟨ts, .firstWord (c :: w), cfg, pos, fw, slot⟩
        = .cont ⟨ts, .done, cfg, pos, fw, slot⟩ := by
      simp only [line_step, first_word_arm, hscan]
    rw [line_run, run_fuel_cont_step hstep, run_fuel_done]
  · intro ctx M cfgChoose carried tokens
    exact driver_fuel_isSome ctx M cfgChoose _ carried tokens (by omega)

/-- C9 witness: a two-character word on a zero-width line terminates with
nothing emitted and nothing carried, and the driver loop exits on a
carried word plus a whitespace token within the computed fuel. -/
theorem line_parsing_terminates_witness :
    line_run ⟨0, 4, true, true⟩ (fun s => s.length) 7
        ⟨[], .firstWord [Char.ofNat 97, Char.ofNat 98], ⟨1, 0⟩, 0, true, none⟩
        = some ([], none, [], 0)
      ∧ (driver_fuel ⟨2, 4, true, true⟩ (fun s => s.length) (fun _ _ => ⟨1, 0⟩)
          (driver_dm (some (.word [Char.ofNat 97, Char.ofNat 98, Char.ofNat 99]))
              [.whitespace 2] + 1)
          (some (.word [Char.ofNat 97, Char.ofNat 98, Char.ofNat 99]))
          [.whitespace 2]).isSome :=
  ⟨line_parsing_terminates.1 ⟨0, 4, true, true⟩ (fun s => s.length) ⟨1, 0⟩ [] 0 5
      true none (Char.ofNat 97) [Char.ofNat 98] (by decide),
   line_parsing_terminates.2 ⟨2, 4, true, true⟩ (fun s => s.length) (fun _ _ => ⟨1, 0⟩)
      (some (.word [Char.ofNat 97, Char.ofNat 98, Char.ofNat 99])) [.whitespace 2]⟩

/-- C5 counterexample: a `Break(Some("-"))` whose character does not fit is
not rendered.  With character width 1 and a one-pixel line, after the word
"a" fills the line, the break before the unfitting word "bc" produces no
`PrintedCharacters` for "-"; instead the whole of "-" is carried to the
next line as a `Word` token (not as a `Break(None)` wrap marker). -/
theorem break_char_counterexample :
    line_run ⟨1, 4, true, true⟩ (fun s => s.length) 20
        (mk_line_state ⟨1, 0⟩ 0 none
          [.word [Char.ofNat 97], .brk (some [Char.ofNat 45]),
           .word [Char.ofNat 98, Char.ofNat 99]])
        = some ([.printed [Char.ofNat 97]], some (.word [Char.ofNat 45]),
            [.word [Char.ofNat 98, Char.ofNat 99]], 1)
      ∧ (Elem.printed [Char.ofNat 45]) ∉ [Elem.printed [Char.ofNat 97]]
      ∧ some (Tok.word [Char.ofNat 45]) ≠ some (Tok.brk none) := by
  refine ⟨by decide, by decide, by decide⟩

/-- C5 (amended): when the line element parser processes `Break(Some(c))`
and the next word does not fit, it renders `c` and wraps only if `c` itself
fits in the remaining space; when `c` does not fit, no element is emitted
and `Word(c)` is carried to the next line instead of a wrap marker
(src/rendering/line_iter.rs:277-290). -/
theorem break_with_char_render (ctx : LineCtx) (M : List Char → Nat)
    (cfg : SpaceConfig) (ts : List Tok) (pos fuel : Nat) (fw : Bool)
    (slot : Option Tok) (c : List Char) (ww : Nat)
    (hnw : next_word_width M ts = some ww)
    (hnf : fits_in_line ctx pos ww = false) :
    (fits_in_line ctx pos (M c) = true →
      line_run ctx M (fuel + 2)
          ⟨ts, .processToken (.brk (some c)), cfg, pos, fw, slot⟩
        = some ([.printed c], some (.brk none), ts, pos + M c))
      ∧ (fits_in_line ctx pos (M c) = false →
        line_run ctx M (fuel + 2)
            ⟨ts, .processToken (.brk (some c)), cfg, pos, fw, slot⟩
          = some ([], some (.word c), ts, pos)) := by
  constructor
  · intro hc
    have hstep : line_step ctx M
        ⟨ts, .processToken (.brk (some c)), cfg, pos, fw, slot⟩
        = .emit (.printed c) ⟨ts, .done, cfg, pos + M c, fw, some (.brk none)⟩ := by
      simp [line_step, break_arm, hnw, hnf, hc, finish_wrapped_state, finish_state]
    rw [line_run, run_fuel_emit_step hstep, run_fuel_done]
    rfl
  · intro hc
    have hstep : line_step ctx M
        ⟨ts, .processToken (.brk (some c)), cfg, pos, fw, slot⟩
        = .cont ⟨ts, .done, cfg, pos, fw, some (.word c)⟩ := by
      simp [line_step, break_arm, hnw, hnf, hc, finish_state]
    rw [line_run, run_fuel_cont_step hstep, run_fuel_done]

/-- C5 witness: with character width 1 on a line of width 3, after two
pixels are used, a break whose next word "bc" does not fit renders "-" and
wraps when "-" fits, and with the line full at width 2 it carries
`Word("-")` instead. -/
theorem break_with_char_render_witness :
    (line_run ⟨3, 4, true, true⟩ (fun s => s.length) 7
        ⟨[.word [Char.ofNat 98, Char.ofNat 99]],
          .processToken (.brk (some [Char.ofNat 45])), ⟨1, 0⟩, 2, false, none⟩
      = some ([.printed [Char.ofNat 45]], some (.brk none),
          [.word [Char.ofNat 98, Char.ofNat 99]], 3))
      ∧ (line_run ⟨2, 4, true, true⟩ (fun s => s.length) 7
          ⟨[.word [Char.ofNat 98, Char.ofNat 99]],
            .processToken (.brk (some [Char.ofNat 45])), ⟨1, 0⟩, 2, false, none⟩
        = some ([], some (.word [Char.ofNat 45]),
            [.word [Char.ofNat 98, Char.ofNat 99]], 2)) :=
  ⟨(break_with_char_render ⟨3, 4, true, true⟩ (fun s => s.length) ⟨1, 0⟩
      [.word [Char.ofNat 98, Char.ofNat 99]] 2 5 false none [Char.ofNat 45] 2
      (by decide) (by decide)).1 (by decide),
   (break_with_char_render ⟨2, 4, true, true⟩ (fun s => s.length) ⟨1, 0⟩
      [.word [Char.ofNat 98, Char.ofNat 99]] 2 5 false none [Char.ofNat 45] 2
      (by decide) (by decide)).2 (by decide)⟩

/-- C8: a `Tab` token is rendered as a `Space` element with space count `0`
(so justification never stretches a tab): when the distance to the next tab
stop fits, a `Space(next_tab_width, 0)` is emitted and the line continues
with the next token; otherwise a `Space` of the remaining line space with
count `0` is emitted and the line wraps (carrying `Break(None)`)
(src/rendering/line_iter.rs:306-324). -/
theorem tab_zero_space_count (ctx : LineCtx) (M : List Char → Nat)
    (cfg : SpaceConfig) (ts : List Tok) (pos fuel : Nat) (fw : Bool)
    (slot : Option Tok) :
    (fits_in_line ctx pos (next_tab_width ctx pos) = true →
      line_run ctx M (fuel + 1) ⟨ts, .processToken .tab, cfg, pos, fw, slot⟩
        = (line_run ctx M fuel (next_token_state
            ⟨ts, .processToken .tab, cfg, pos + next_tab_width ctx pos, fw, slot⟩)).map
            (fun r => (.space (next_tab_width ctx pos) 0 :: r.1, r.2)))
      ∧ (fits_in_line ctx pos (next_tab_width ctx pos) = false →
        line_run ctx M (fuel + 2) ⟨ts, .processToken .tab, cfg, pos, fw, slot⟩
          = some ([.space (cursor_space ctx pos) 0], some (.brk none), ts, pos)) := by
  constructor
  · intro hfit
    have hstep : line_step ctx M ⟨ts, .processToken .tab, cfg, pos, fw, slot⟩
        = .emit (.space (next_tab_width ctx pos) 0)
            (next_token_state ⟨ts, .processToken .tab, cfg,
              pos + next_tab_width ctx pos, fw, slot⟩) := by
      simp [line_step, hfit]
    rw [line_run, run_fuel_emit_step hstep,
      show collect_handler.on_elem [] (.space (next_tab_width ctx pos) 0)
        = [] ++ [Elem.space (next_tab_width ctx pos) 0] from rfl,
      run_collect_shift ctx M fuel _ ([] ++ [Elem.space (next_tab_width ctx pos) 0])]
    simp only [line_run]
    cases run_fuel ctx M collect_handler fuel (next_token_state
        ⟨ts, .processToken .tab, cfg, pos + next_tab_width ctx pos, fw, slot⟩) [] with
    | none => simp
    | some r => simp
  · intro hfit
    have hstep : line_step ctx M ⟨ts, .processToken .tab, cfg, pos, fw, slot⟩
        = .emit (.space (cursor_space ctx pos) 0)
            ⟨ts, .done, cfg, pos, fw, some (.brk none)⟩ := by
      simp [line_step, hfit, finish_wrapped_state, finish_state]
    rw [line_run, run_fuel_emit_step hstep, run_fuel_done]
    rfl

/-- C8 witness: with tab width 4, from position 2 of a 10-pixel line the
tab emits `Space(2, 0)` and continues; from position 2 of a 3-pixel line it
emits `Space(1, 0)` and wraps. -/
theorem tab_zero_space_count_witness :
    (line_run ⟨10, 4, true, true⟩ (fun s => s.length) 6
        ⟨[], .processToken .tab, ⟨1, 0⟩, 2, false, none⟩
      = (line_run ⟨10, 4, true, true⟩ (fun s => s.length) 5 (next_token_state
          ⟨[], .processToken .tab, ⟨1, 0⟩, 2 + next_tab_width ⟨10, 4, true, true⟩ 2,
            false, none⟩)).map
          (fun r => (.space (next_tab_width ⟨10, 4, true, true⟩ 2) 0 :: r.1, r.2)))
      ∧ (line_run ⟨3, 4, true, true⟩ (fun s => s.length) 7
          ⟨[], .processToken .tab, ⟨1, 0⟩, 2, false, none⟩
        = some ([.space (cursor_space ⟨3, 4, true, true⟩ 2) 0], some (.brk none), [], 2)) :=
  ⟨(tab_zero_space_count ⟨10, 4, true, true⟩ (fun s => s.length) ⟨1, 0⟩ [] 2 5
      false none).1 (by decide),
   (tab_zero_space_count ⟨3, 4, true, true⟩ (fun s => s.length) ⟨1, 0⟩ [] 2 5
      false none).2 (by decide)⟩

/-- C4 counterexample: the whitespace-wrap carry arithmetic of the claim is
off by the eaten space.  First scenario (character width 1, line width 4,
position 2, `Whitespace(3)` before a word of width 2): one space is eaten
first, one space fits and is rendered, and `Whitespace(1)` is carried - not
`Whitespace(n - k) = Whitespace(2)`.  Second scenario (line width 3,
position 2, `Whitespace(2)` before a word of width 2): no space fits, and
although `n = 2 > 1`, the carried token is the bare wrap marker
`Break(None)`, not `Whitespace(n - 1) = Whitespace(1)`, because the
eaten-space shadowing leaves only one space before the `n > 1` test. -/
theorem whitespace_carry_counterexample :
    (line_run ⟨4, 4, true, true⟩ (fun s => s.length) 20
        ⟨[.word [Char.ofNat 99, Char.ofNat 100]],
          .processToken (.whitespace 3), ⟨1, 0⟩, 2, false, none⟩
      = some ([.space 1 1], some (.whitespace 1),
          [.word [Char.ofNat 99, Char.ofNat 100]], 3))
      ∧ some (Tok.whitespace 1) ≠ some (Tok.whitespace (3 - 1))
      ∧ (line_run ⟨3, 4, true, true⟩ (fun s => s.length) 20
          ⟨[.word [Char.ofNat 99, Char.ofNat 100]],
            .processToken (.whitespace 2), ⟨1, 0⟩, 2, false, none⟩
        = some ([], some (.brk none),
            [.word [Char.ofNat 99, Char.ofNat 100]], 2))
      ∧ some (Tok.brk none) ≠ some (Tok.whitespace (2 - 1)) := by
  refine ⟨by decide, by decide, by decide, by decide⟩

/-- C4 (amended): when the line element parser processes `Whitespace(n)`
after the first word, the alignment renders ending spaces, and one
space-run plus the next word would not fit, then one space is eaten first
(`n1 = n - 1`) and `k` is counted against the remaining room: if `0 < k`
and `n1 - k != 0` a `Space` of `k` spaces is emitted and `Whitespace(n1 - k)`
is carried; if `0 < k` and `n1 - k = 0` the `Space` is emitted and the line
continues with the next token; if `k = 0` and `1 < n1` nothing is emitted
and `Whitespace(n1 - 1)` is carried (a second space is eaten); if `k = 0`
and `n1 <= 1` the line wraps carrying `Break(None)`
(src/rendering/line_iter.rs:207-265). -/
theorem whitespace_wrap_carry (ctx : LineCtx) (M : List Char → Nat)
    (cfg : SpaceConfig) (ts : List Tok) (pos fuel n ww n1 k : Nat)
    (slot : Option Tok)
    (hend : ctx.ending_spaces = true)
    (hnw : next_word_width M ts = some ww)
    (hnf : fits_in_line ctx pos (cfg.peek_next_width n + ww) = false)
    (hn1 : n1 = n - 1)
    (hk : k = count_widest_space_seq cfg (cursor_space ctx pos) n1) :
    (0 < k → n1 - k ≠ 0 →
      line_run ctx M (fuel + 2)
          ⟨ts, .processToken (.whitespace n), cfg, pos, false, slot⟩
        = some ([.space (cfg.consume k).1 k], some (.whitespace (n1 - k)), ts,
            pos + (cfg.consume k).1))
      ∧ (0 < k → n1 - k = 0 →
        line_run ctx M (fuel + 1)
            ⟨ts, .processToken (.whitespace n), cfg, pos, false, slot⟩
          = (line_run ctx M fuel (next_token_state
              ⟨ts, .processToken (.whitespace n), (cfg.consume k).2,
                pos + (cfg.consume k).1, false, slot⟩)).map
              (fun r => (.space (cfg.consume k).1 k :: r.1, r.2)))
      ∧ (k = 0 → 1 < n1 →
        line_run ctx M (fuel + 2)
            ⟨ts, .processToken (.whitespace n), cfg, pos, false, slot⟩
          = some ([], some (.whitespace (n1 - 1)), ts, pos))
      ∧ (k = 0 → ¬ 1 < n1 →
        line_run ctx M (fuel + 2)
            ⟨ts, .processToken (.whitespace n), cfg, pos, false, slot⟩
          = some ([], some (.brk none), ts, pos)) := by
  subst hn1 hk
  have hstep0 : line_step ctx M
      ⟨ts, .processToken (.whitespace n), cfg, pos, false, slot⟩
      = whitespace_render ctx
          ⟨ts, .processToken (.whitespace n), cfg, pos, false, slot⟩ true n := by
    simp [line_step, whitespace_arm, hnw, hnf, hend]
  refine ⟨?_, ?_, ?_, ?_⟩
  · intro h1 h2
    have hstep : line_step ctx M
        ⟨ts, .processToken (.whitespace n), cfg, pos, false, slot⟩
        = .emit (.space (cfg.consume (count_widest_space_seq cfg
              (cursor_space ctx pos) (n - 1))).1
            (count_widest_space_seq cfg (cursor_space ctx pos) (n - 1)))
            ⟨ts, .done,
              (cfg.consume (count_widest_space_seq cfg
                (cursor_space ctx pos) (n - 1))).2,
              pos + (cfg.consume (count_widest_space_seq cfg
                (cursor_space ctx pos) (n - 1))).1, false,
              some (.whitespace (n - 1 - count_widest_space_seq cfg
                (cursor_space ctx pos) (n - 1)))⟩ := by
      rw [hstep0]
      simp [whitespace_render, h1, h2, finish_state]
    rw [line_run, run_fuel_emit_step hstep, run_fuel_done]
    rfl
  · intro h1 h2
    have hstep : line_step ctx M
        ⟨ts, .processToken (.whitespace n), cfg, pos, false, slot⟩
        = .emit (.space (cfg.consume (count_widest_space_seq cfg
              (cursor_space ctx pos) (n - 1))).1
            (count_widest_space_seq cfg (cursor_space ctx pos) (n - 1)))
            (next_token_state
              ⟨ts, .processToken (.whitespace n),
                (cfg.consume (count_widest_space_seq cfg
                  (cursor_space ctx pos) (n - 1))).2,
                pos + (cfg.consume (count_widest_space_seq cfg
                  (cursor_space ctx pos) (n - 1))).1, false, slot⟩) := by
      rw [hstep0]
      simp [whitespace_render, h1, h2]
    rw [line_run, run_fuel_emit_step hstep]
    rw [show collect_handler.on_elem []
        (.space (cfg.consume (count_widest_space_seq cfg
            (cursor_space ctx pos) (n - 1))).1
          (count_widest_space_seq cfg (cursor_space ctx pos) (n - 1)))
      = [] ++ [Elem.space (cfg.consume (count_widest_space_seq cfg
            (cursor_space ctx pos) (n - 1))).1
          (count_widest_space_seq cfg (cursor_space ctx pos) (n - 1))] from rfl]
    rw [run_collect_shift]
    simp only [line_run]
    cases run_fuel ctx M collect_handler fuel (next_token_state
        ⟨ts, .processToken (.whitespace n),
          (cfg.consume (count_widest_space_seq cfg
            (cursor_space ctx pos) (n - 1))).2,
          pos + (cfg.consume (count_widest_space_seq cfg
            (cursor_space ctx pos) (n - 1))).1, false, slot⟩) [] with
    | none => simp
    | some r => simp
  · intro h1 h2
    have hstep : line_step ctx M
        ⟨ts, .processToken (.whitespace n), cfg, pos, false, slot⟩
        = .cont ⟨ts, .done, cfg, pos, false,
            some (.whitespace (n - 1 - 1))⟩ := by
      rw [hstep0]
      simp [whitespace_render, h1, h2, finish_state]
    rw [line_run, run_fuel_cont_step hstep, run_fuel_done]
  · intro h1 h2
    have hstep : line_step ctx M
        ⟨ts, .processToken (.whitespace n), cfg, pos, false, slot⟩
        = .cont ⟨ts, .done, cfg, pos, false, some (.brk none)⟩ := by
      rw [hstep0]
      simp [whitespace_render, h1, h2, finish_wrapped_state, finish_state]
    rw [line_run, run_fuel_cont_step hstep, run_fuel_done]

/-- C4 witness: with character width 1, line width 4, position 2 and
`Whitespace(3)` before the word "cd" (width 2): `n1 = 2`, `k = 1`, one
space of width 1 is rendered and `Whitespace(1)` is carried. -/
theorem whitespace_wrap_carry_witness :
    0 < 1 ∧ 2 - 1 ≠ 0
      ∧ line_run ⟨4, 4, true, true⟩ (fun s => s.length) 7
          ⟨[.word [Char.ofNat 99, Char.ofNat 100]],
            .processToken (.whitespace 3), ⟨1, 0⟩, 2, false, none⟩
        = some ([.space ((⟨1, 0⟩ : SpaceConfig).consume 1).1 1],
            some (.whitespace (2 - 1)),
            [.word [Char.ofNat 99, Char.ofNat 100]],
            2 + ((⟨1, 0⟩ : SpaceConfig).consume 1).1) :=
  ⟨by decide, by decide,
    (whitespace_wrap_carry ⟨4, 4, true, true⟩ (fun s => s.length) ⟨1, 0⟩
      [.word [Char.ofNat 99, Char.ofNat 100]] 2 5 3 2 2 1 none
      (by decide) (by decide) (by decide) (by decide) (by decide)).1
      (by decide) (by decide)⟩

theorem findIdx_nbsp_none :
    ∀ (l : List Char) (i : Nat), (∀ c ∈ l, ¬ c = nbsp) →
      List.findIdx? (fun c => c = nbsp) l i = none := by
  intro l
  induction l with
  | nil => intro i _; simp [List.findIdx?]
  | cons x xs ih =>
    intro i h
    rw [List.findIdx?_cons]
    have hx : ¬ x = nbsp := h x (List.mem_cons_self x xs)
    simp only [hx, decide_False, Bool.false_eq_true, if_false]
    exact ih (i + 1) (fun c hc => h c (List.mem_cons_of_mem x hc))

theorem findIdx_nbsp_append (b : List Char) :
    ∀ (a : List Char) (i : Nat), (∀ c ∈ a, ¬ c = nbsp) →
      List.findIdx? (fun c => c = nbsp) (a ++ nbsp :: b) i = some (i + a.length) := by
  intro a
  induction a with
  | nil =>
    intro i _
    simp [List.findIdx?_cons]
  | cons x a2 ih =>
    intro i h
    rw [List.cons_append, List.findIdx?_cons]
    have hx : ¬ x = nbsp := h x (List.mem_cons_self x a2)
    simp only [hx, decide_False, Bool.false_eq_true, if_false]
    rw [ih (i + 1) (fun c hc => h c (List.mem_cons_of_mem x hc))]
    simp
    omega

/-- C7: U+00A0 (no-break space) is classified as a word character and not
as a breaking space; in the token stream it never appears in the consumed
characters of a `Whitespace` token nor of a `Break` wrap point; and when the
`Word` state renders a word with an internal U+00A0, the word is split
there: the prefix is emitted as `PrintedCharacters`, followed by a single
`Space` of width `space_config.consume(1)` with space count `1` in place of
the U+00A0 (src/parser.rs:72-80, src/rendering/line_iter.rs:362-391). -/
theorem nbsp_word_and_split (s : List Char) (p : PToken × List Char)
    (hp : p ∈ parse_segments s)
    (ctx : LineCtx) (M : List Char → Nat) (cfg : SpaceConfig) (pos fuel : Nat)
    (fw : Bool) (a b : List Char)
    (ha : ∀ c ∈ a, ¬ c = nbsp) (hb : ∀ c ∈ b, ¬ c = nbsp) (hne : a ≠ []) :
    (is_word_char nbsp = true ∧ is_space_char nbsp = false)
      ∧ (∀ m, p.1 = .whitespace m → ¬ nbsp ∈ p.2)
      ∧ (p.1 = .brk → ¬ nbsp ∈ p.2)
      ∧ line_run ctx M (fuel + 4)
          ⟨[], .wordSt (a ++ nbsp :: b), cfg, pos, fw, none⟩
        = some ([.printed a, .space (cfg.consume 1).1 1, .printed b], none, [],
            pos + M a + (cfg.consume 1).1 + M b) := by
  have hall := (parse_segments_go_spec s.length s le_rfl).2
  rw [List.all_eq_true] at hall
  have hok : seg_ok p = true := hall p hp
  obtain ⟨t, seg⟩ := p
  refine ⟨⟨by decide, by decide⟩, ?_, ?_, ?_⟩
  · intro m hm hmem
    simp only at hm
    subst hm
    have hsp : seg.all is_space_char = true := by
      simp only [seg_ok, Bool.and_eq_true] at hok
      tauto
    rw [List.all_eq_true] at hsp
    exact absurd (hsp nbsp hmem) (by decide)
  · intro hm hmem
    simp only at hm
    subst hm
    have hseq : seg = [zwsp] := by
      simp only [seg_ok, beq_iff_eq] at hok
      exact hok
    subst hseq
    simp only [List.mem_singleton] at hmem
    exact absurd hmem (by decide)
  · cases a with
    | nil => exact absurd rfl hne
    | cons x a2 =>
      have hf1 : List.findIdx? (fun c => c = nbsp) ((x :: a2) ++ nbsp :: b) 0
          = some (a2.length + 1) := by
        rw [findIdx_nbsp_append b (x :: a2) 0 ha]
        simp
      have hlen : a2.length + 1 = (x :: a2).length := by simp
      have htake : ((x :: a2) ++ nbsp :: b).take (a2.length + 1) = x :: a2 := by
        rw [hlen]
        exact List.take_left _ _
      have hdrop : ((x :: a2) ++ nbsp :: b).drop (a2.length + 1) = nbsp :: b := by
        rw [hlen]
        exact List.drop_left _ _
      have hstep1 : line_step ctx M
          ⟨[], .wordSt ((x :: a2) ++ nbsp :: b), cfg, pos, fw, none⟩
          = .emit (.printed (x :: a2))
              ⟨[], .wordSt (nbsp :: b), cfg, pos + M (x :: a2), fw, none⟩ := by
        simp only [line_step, word_state_arm, hf1, htake, hdrop]
      have hf2 : List.findIdx? (fun c => c = nbsp) (nbsp :: b) 0 = some 0 := by
        rw [List.findIdx?_cons]
        simp
      have hstep2 : line_step ctx M
          ⟨[], .wordSt (nbsp :: b), cfg, pos + M (x :: a2), fw, none⟩
          = .emit (.space (cfg.consume 1).1 1)
              ⟨[], .wordSt b, (cfg.consume 1).2,
                pos + M (x :: a2) + (cfg.consume 1).1, fw, none⟩ := by
        simp only [line_step, word_state_arm, hf2]
        rfl
      have hf3 : List.findIdx? (fun c => c = nbsp) b 0 = none :=
        findIdx_nbsp_none b 0 hb
      have hstep3 : line_step ctx M
          ⟨[], .wordSt b, (cfg.consume 1).2,
            pos + M (x :: a2) + (cfg.consume 1).1, fw, none⟩
          = .emit (.printed b)
              ⟨[], .done, (cfg.consume 1).2,
                pos + M (x :: a2) + (cfg.consume 1).1 + M b, fw, none⟩ := by
        simp only [line_step, word_state_arm, hf3, next_token_state]
      rw [line_run, run_fuel_emit_step hstep1, run_fuel_emit_step hstep2,
        run_fuel_emit_step hstep3, run_fuel_done]
      rfl

/-- C7 witness: the single space input tokenizes to a `Whitespace` segment
without U+00A0, and the word "a&#160;b" (width function: character count,
space config of width 1) renders as "a", a one-space `Space`, then "b". -/
theorem nbsp_word_and_split_witness :
    (is_word_char nbsp = true ∧ is_space_char nbsp = false)
      ∧ (∀ m, (PToken.whitespace 1, [Char.ofNat 32]).1 = .whitespace m →
          ¬ nbsp ∈ (PToken.whitespace 1, [Char.ofNat 32]).2)
      ∧ ((PToken.whitespace 1, [Char.ofNat 32]).1 = .brk →
          ¬ nbsp ∈ (PToken.whitespace 1, [Char.ofNat 32]).2)
      ∧ line_run ⟨10, 4, true, true⟩ (fun s => s.length) 4
          ⟨[], .wordSt ([Char.ofNat 97] ++ nbsp :: [Char.ofNat 98]),
            ⟨1, 0⟩, 0, false, none⟩
        = some ([.printed [Char.ofNat 97],
            .space ((⟨1, 0⟩ : SpaceConfig).consume 1).1 1,
            .printed [Char.ofNat 98]], none, [],
            0 + 1 + ((⟨1, 0⟩ : SpaceConfig).consume 1).1 + 1) :=
  nbsp_word_and_split [Char.ofNat 32] (PToken.whitespace 1, [Char.ofNat 32])
    (by decide) ⟨10, 4, true, true⟩ (fun s => s.length) ⟨1, 0⟩ 0 0 false
    [Char.ofNat 97] [Char.ofNat 98] (by decide) (by decide) (by decide)

end EmbeddedText
